import Mathlib

/-!
Verification development for the secp256k1 signing core of the
avalanche-types repository (private_key.rs, kms/aws/eth_signer.rs and the
two forwarder examples).

Shallow embedding conventions:
- bytes are `Nat` with a `< 256` side condition where it matters;
- fallible Rust code returning `io::Result` is embedded as `Res`;
- a Rust `assert!`/`unwrap` panic is the distinguished outcome `Res.panic`
  (the code under verification uses `assert_eq!` on lengths, which panics
  rather than returning an error);
- modules of the repository that are not in the excerpted sources
  (signature.rs, formatting.rs, public_key.rs, the Cmk wrapper) and the
  external crates (k256, ethers, ring) are modelled from the spec; each
  such definition carries a doc comment saying so.
-/

/-- Error kinds named by the spec (section 7).  The Rust code returns
`ErrorKind::Other` with a message string; the constructor used in the model
identifies which behaviour produced the error. -/
inductive ResErr where
  | invalidLength
  | invalidScalar
  | checksumMismatch
  | cb58DecodeFailure
  | hexDecodeFailure
  | duplicateKey
  | signingFailure
  | encodingFailure
  deriving DecidableEq, Repr

/-- Outcome of a fallible Rust operation: `ok`, a returned error of a
specific kind, or a panic (`assert!` failure / `unwrap` on an error). -/
inductive Res (α : Type) where
  | ok (a : α)
  | err (e : ResErr)
  | panic
  deriving DecidableEq, Repr

/-! ## Little/big-endian byte encodings of naturals -/

/-- Value of a little-endian byte list. -/
def leToNat : List Nat → Nat
  | [] => 0
  | b :: bs => b + 256 * leToNat bs

/-- Fixed-width little-endian bytes of a natural number. -/
def natToLE : Nat → Nat → List Nat
  | 0, _ => []
  | l + 1, n => n % 256 :: natToLE l (n / 256)

/-- Minimal little-endian bytes, fuel-based so the kernel can evaluate it
(the fuel only needs to be at least the value). -/
def natToLEMinAux : Nat → Nat → List Nat
  | 0, _ => []
  | fuel + 1, n => if n = 0 then [] else n % 256 :: natToLEMinAux fuel (n / 256)

/-- Minimal little-endian bytes of a natural number (no trailing zero). -/
def natToLEMin (n : Nat) : List Nat := natToLEMinAux n n

/-- Value of a big-endian byte list (as produced by `to_be_bytes`). -/
def beToNat (bs : List Nat) : Nat := leToNat bs.reverse

/-- Fixed-width big-endian bytes of a natural number (`to_be_bytes`). -/
def natToBE (l n : Nat) : List Nat := (natToLE l n).reverse

/-- Minimal big-endian bytes of a natural number (no leading zero). -/
def natToBEMin (n : Nat) : List Nat := (natToLEMin n).reverse

/-! ## Character-table lookup -/

/-- Index of a character in an alphabet table (first match). -/
def idxIn (c : Char) : List Char → Option Nat
  | [] => none
  | a :: as => if a = c then some 0 else (idxIn c as).map (· + 1)

/-! ## Repeated prefix trimming (Rust `str::trim_start_matches`) -/

/-- Fuel-based worker for `trimPfxAll` (the fuel only needs to be at least
the string length), so the kernel can evaluate it. -/
def trimPfxAllAux : Nat → List Char → List Char → List Char
  | 0, _, s => s
  | fuel + 1, p, s =>
    if p ≠ [] ∧ p.isPrefixOf s then trimPfxAllAux fuel p (s.drop p.length)
    else s

/-- Model of Rust `trim_start_matches`: removes every repetition of the
pattern from the start of the string. -/
def trimPfxAll (p s : List Char) : List Char := trimPfxAllAux s.length p s

/-! ## Hex codec (the `hex` crate: lowercase, two digits per byte) -/

/-- Lowercase hexadecimal digit table. -/
def hexAlpha : List Char := String.toList "0123456789abcdef"

/-- Hexadecimal digit character of a value below 16. -/
def hexDigitChar (d : Nat) : Char := hexAlpha.getD d '0'

/-- Model of `hex::encode`: two lowercase hex digits per byte. -/
def hexEncode : List Nat → List Char
  | [] => []
  | b :: bs => hexDigitChar (b / 16) :: hexDigitChar (b % 16) :: hexEncode bs

/-- Model of `hex::decode`: fails on an odd length or a non-hex character. -/
def hexDecode : List Char → Option (List Nat)
  | [] => some []
  | [_] => none
  | c1 :: c2 :: cs =>
    match idxIn c1 hexAlpha, idxIn c2 hexAlpha, hexDecode cs with
    | some d1, some d2, some bs => some ((d1 * 16 + d2) :: bs)
    | _, _, _ => none

/-! ## Base-58 codec (the repository's `formatting` module is not in the
excerpt; modelled from the spec's description of checksummed base-58) -/

/-- Bitcoin base-58 alphabet (no '0', 'O', 'I', 'l'). -/
def b58Alpha : List Char :=
  String.toList "123456789ABCDEFGHJKLMNPQRSTUVWXYZabcdefghijkmnopqrstuvwxyz"

/-- Base-58 digit character of a value below 58. -/
def b58DigitChar (d : Nat) : Char := b58Alpha.getD d '1'

/-- Little-endian base-58 digits, fuel-based so the kernel can evaluate it
(the fuel only needs to be at least the value). -/
def natToB58Aux : Nat → Nat → List Nat
  | 0, _ => []
  | fuel + 1, n => if n = 0 then [] else n % 58 :: natToB58Aux fuel (n / 58)

/-- Little-endian base-58 digits of a natural number. -/
def natToB58 (n : Nat) : List Nat := natToB58Aux n n

/-- Value of little-endian base-58 digits. -/
def b58ToNat : List Nat → Nat
  | [] => 0
  | d :: ds => d + 58 * b58ToNat ds

/-- Number of leading zero bytes. -/
def countLeadZeros : List Nat → Nat
  | [] => 0
  | b :: bs => if b = 0 then countLeadZeros bs + 1 else 0

/-- Number of leading '1' characters. -/
def countLeadOnes : List Char → Nat
  | [] => 0
  | c :: cs => if c = '1' then countLeadOnes cs + 1 else 0

/-- All-or-nothing conversion of characters to base-58 digit values. -/
def charsToB58Digits : List Char → Option (List Nat)
  | [] => some []
  | c :: cs =>
    match idxIn c b58Alpha, charsToB58Digits cs with
    | some d, some ds => some (d :: ds)
    | _, _ => none

/-- Modelled from the spec: base-58 encoding of a byte string (leading zero
bytes become leading '1' characters; the remaining value is written in
big-endian base-58 digits). -/
def b58Encode (bytes : List Nat) : List Char :=
  List.replicate (countLeadZeros bytes) '1' ++
    ((natToB58 (beToNat bytes)).map b58DigitChar).reverse

/-- Modelled from the spec: base-58 decoding of a character string. -/
def b58Decode (s : List Char) : Option (List Nat) :=
  let z := countLeadOnes s
  match charsToB58Digits (s.drop z) with
  | none => none
  | some ds => some (List.replicate z 0 ++ natToBEMin (b58ToNat ds.reverse))

/-! ## Checksummed CB58 (the repository's `formatting` module; modelled
from the spec: checksum4 = first 4 bytes of SHA-256(SHA-256(payload)),
appended before base-58 encoding, verified and stripped on decode).
SHA-256 itself is an external primitive (the `ring`/`sha2` crates); every
definition below takes it as an explicit function argument `sha`. -/

/-- Modelled from the spec: `formatting::encode_cb58_with_checksum_string`. -/
def encodeCb58WithChecksum (sha : List Nat → List Nat) (payload : List Nat) :
    List Char :=
  b58Encode (payload ++ (sha (sha payload)).take 4)

/-- Modelled from the spec: `formatting::decode_cb58_with_checksum`; fails
with `cb58DecodeFailure` on a malformed base-58 string or a too-short
payload, and with `checksumMismatch` when the trailing 4 checksum bytes do
not match the double-SHA-256 of the payload. -/
def decodeCb58WithChecksum (sha : List Nat → List Nat) (s : List Char) :
    Res (List Nat) :=
  match b58Decode s with
  | none => .err .cb58DecodeFailure
  | some bytes =>
    if bytes.length < 4 then .err .cb58DecodeFailure
    else
      let payload := bytes.take (bytes.length - 4)
      let cks := bytes.drop (bytes.length - 4)
      if cks = (sha (sha payload)).take 4 then .ok payload
      else .err .checksumMismatch

/-! ## The private key (`private_key.rs::Key`) -/

/-- Order of the secp256k1 group (`k256` curve order): a valid private key
is a scalar in `[1, ORDER)`. -/
def ORDER : Nat :=
  115792089237316195423570985008687907852837564279074904382605163141518161494337

/-- `private_key.rs::Key`: wraps a `k256::SecretKey`, i.e. a 32-byte
big-endian scalar; the scalar value is the state, validity is the `valid`
predicate below. -/
structure Key where
  scalar : Nat
  deriving DecidableEq, Repr

/-- A validly constructed key: nonzero scalar below the curve order
(`k256::SecretKey::from_be_bytes` accepts exactly these). -/
def Key.valid (k : Key) : Prop := 0 < k.scalar ∧ k.scalar < ORDER

instance (k : Key) : Decidable k.valid := by
  unfold Key.valid; infer_instance

/-- `Key::from_bytes`: `assert_eq!(raw.len(), 32)` (panic on violation),
then `k256::SecretKey::from_be_bytes` which rejects zero or non-reduced
scalars (returned as an error). -/
def Key.from_bytes (raw : List Nat) : Res Key :=
  if raw.length ≠ 32 then .panic
  else
    let n := beToNat raw
    if n = 0 ∨ ORDER ≤ n then .err .invalidScalar
    else .ok ⟨n⟩

/-- `Key::to_bytes`: the 32-byte big-endian scalar. -/
def Key.to_bytes (k : Key) : List Nat := natToBE 32 k.scalar

/-- `Key::generate`: fills a 32-byte buffer from the secure random source
and delegates to `from_bytes`.  The random outcome is the explicit
argument; the model covers executions in which the random source succeeds. -/
def Key.generate (randomBytes : List Nat) : Res Key :=
  Key.from_bytes randomBytes

/-- The literal "0x" hex prefix. -/
def hexPfx : List Char := ['0', 'x']

/-- The literal "PrivateKey-" CB58 prefix. -/
def pkPfx : List Char := String.toList "PrivateKey-"

/-- `Key::to_hex`: "0x" followed by the lowercase hex of the scalar bytes. -/
def Key.to_hex (k : Key) : List Char := hexPfx ++ hexEncode k.to_bytes

/-- `Key::from_hex`: strips every leading "0x" (Rust `trim_start_matches`),
hex-decodes, then `from_bytes`. -/
def Key.from_hex (s : List Char) : Res Key :=
  match hexDecode (trimPfxAll hexPfx s) with
  | none => .err .hexDecodeFailure
  | some b => Key.from_bytes b

/-- `Key::to_cb58`: "PrivateKey-" followed by the checksummed CB58 of the
scalar bytes. -/
def Key.to_cb58 (sha : List Nat → List Nat) (k : Key) : List Char :=
  pkPfx ++ encodeCb58WithChecksum sha k.to_bytes

/-- `Key::from_cb58`: strips every leading "PrivateKey-" (Rust
`trim_start_matches`), decodes the checksummed CB58, then `from_bytes`. -/
def Key.from_cb58 (sha : List Nat → List Nat) (s : List Char) : Res Key :=
  match decodeCb58WithChecksum sha (trimPfxAll pkPfx s) with
  | .ok b => Key.from_bytes b
  | .err e => .err e
  | .panic => .panic

/-- The `Display` implementation for `Key`: writes
`hex::encode(self.to_bytes())` — the raw scalar bytes in hex, with no
redaction and no "0x" prefix. -/
def Key.display (k : Key) : List Char := hexEncode k.to_bytes

/-! ## ECDSA over secp256k1 (`Key::sign_digest`)

`sign_digest` delegates to the external `k256` crate
(`SigningKey::sign_prehash`, RFC6979 nonce, low-S normalization, recovery
id).  Modelled from the spec: the secp256k1 group is cyclic of prime order
`ORDER`, so it is modelled as `ZMod ORDER` with the generator `G = 1`; a
group element `P` corresponds to the curve point `P • G`.  The x-coordinate
of a point is shared exactly by `P` and `-P`; the recovery id selects
between the two, which the model captures by `pointX`/`pointRecid` mapping
the pair `(P, -P)` to a canonical representative plus a parity bit.  The
RFC6979 nonce and the modular inverses appear as explicit arguments (the
external crate computes them; ZMod over a huge literal has no computable
field inverse without a primality certificate). -/

instance : NeZero ORDER := ⟨by decide⟩

/-- Modelled from the spec: the "x-coordinate" of a nonzero group element,
identifying `P` and `-P` (a genuine curve x-coordinate determines the point
up to sign). -/
def pointX (P : ZMod ORDER) : Nat :=
  if 2 * P.val ≤ ORDER then P.val else ORDER - P.val

/-- Modelled from the spec: the recovery id distinguishing `P` from `-P`
(the parity bit of the y-coordinate on the real curve). -/
def pointRecid (P : ZMod ORDER) : Nat :=
  if 2 * P.val ≤ ORDER then 0 else 1

/-- Modelled from the spec: standard ECDSA public-key recovery's
reconstruction of the nonce point from `(r, recovery id)`. -/
def recoverPoint (x recid : Nat) : ZMod ORDER :=
  if recid = 0 then (x : ZMod ORDER) else -(x : ZMod ORDER)

/-- `Key::to_public_key`: the public key is `scalar • G`, i.e. the scalar
itself in the cyclic-group model. -/
def Key.to_public_key (k : Key) : ZMod ORDER := (k.scalar : ZMod ORDER)

/-- The 65-byte recoverable signature (`signature.rs::Sig`, modelled from
the spec): 32-byte big-endian `r`, 32-byte big-endian `s`, one recovery
byte `v`. -/
structure EcdsaSig where
  r : Nat
  s : Nat
  v : Nat
  deriving DecidableEq, Repr

/-- `Sig::to_bytes`: the 65-byte layout `r(32) ++ s(32) ++ v(1)`. -/
def EcdsaSig.to_bytes (sig : EcdsaSig) : List Nat :=
  natToBE 32 sig.r ++ natToBE 32 sig.s ++ [sig.v]

/-- The ECDSA `s` scalar `nonce⁻¹ (z + r·d)` for digest value `z`, signing
scalar `d` and `r = x(nonce • G)`. -/
def sigS (k : Key) (nonce nonceInv : ZMod ORDER) (digest : List Nat) :
    ZMod ORDER :=
  nonceInv * ((beToNat digest : ZMod ORDER) +
    (pointX nonce : ZMod ORDER) * (k.scalar : ZMod ORDER))

/-- `Key::sign_digest`: asserts the digest is exactly 32 bytes (panic
otherwise), then signs with ECDSA.  `nonce` is the RFC6979 nonce chosen by
the external crate and `nonceInv` its modular inverse (hypotheses of the
theorems tie them together).  Produces `r = x(nonce • G)`,
`s = nonce⁻¹ (z + r·d)` canonicalized to low-S (negating `s` flips the
recovery id), and the recovery id of the nonce point. -/
def Key.sign_digest (k : Key) (nonce nonceInv : ZMod ORDER)
    (digest : List Nat) : Res EcdsaSig :=
  if digest.length ≠ 32 then .panic
  else if pointX nonce = 0 ∨ sigS k nonce nonceInv digest = 0 then
    .err .signingFailure
  else if 2 * (sigS k nonce nonceInv digest).val ≤ ORDER then
    .ok ⟨pointX nonce, (sigS k nonce nonceInv digest).val, pointRecid nonce⟩
  else
    .ok ⟨pointX nonce, ORDER - (sigS k nonce nonceInv digest).val,
      1 - pointRecid nonce⟩

/-- Modelled from the spec: standard ECDSA public-key recovery using the
embedded recovery id: `Q = r⁻¹ (s·R - z·G)` where `R` is reconstructed
from `(r, v)`.  `rInv` is the modular inverse of `r`. -/
def ecdsaRecover (sig : EcdsaSig) (z rInv : ZMod ORDER) : ZMod ORDER :=
  rInv * ((sig.s : ZMod ORDER) * recoverPoint sig.r sig.v - z)

/-! ## Bulk key loading (`private_key.rs::load_cb58_keys`) -/

/-- Splits on newline characters; always returns at least one (possibly
empty) segment, mirroring `str::split('\n')`. -/
def splitNl : List Char → List (List Char)
  | [] => [[]]
  | c :: rest =>
    match splitNl rest with
    | [] => if c = '\n' then [[], []] else [[c]]
    | seg :: segs =>
      if c = '\n' then [] :: seg :: segs else (c :: seg) :: segs

/-- Drops one trailing carriage return.  Rust `str::lines` applies this
only to a segment from which a terminating '\n' was actually removed (a
"\r\n" line ending); a final line not ended by '\n' keeps its '\r'. -/
def stripCr (l : List Char) : List Char :=
  if l.getLast? = some '\r' then l.dropLast else l

/-- Model of Rust `str::lines`: split at '\n'; every segment except the
last was terminated by its '\n', and from exactly those one trailing '\r'
is stripped ("\r\n" endings).  The final segment is the unterminated
remainder: it is dropped when empty (a final line ending is optional and
produces no trailing empty line) and otherwise kept verbatim, carriage
return included — `"foo\r\nbar\n\nbaz\r"` yields
`["foo", "bar", "", "baz\r"]`. -/
def rustLines (cs : List Char) : List (List Char) :=
  let segs := splitNl cs
  segs.dropLast.map stripCr ++
    (if segs.getLast? = some [] then [] else segs.getLast?.toList)

/-- The accumulating loop of `load_cb58_keys`: for each line, first check
the duplicate-detection table (exact string match), error with
`duplicateKey` on a repeat BEFORE decoding the line, otherwise decode with
`from_cb58` and `unwrap` (panic on a decode failure). -/
def loadLoop (sha : List Nat → List Nat) (seen : List (List Char)) :
    List (List Char) → Res (List Key)
  | [] => .ok []
  | s :: rest =>
    if s ∈ seen then .err .duplicateKey
    else
      match Key.from_cb58 sha s with
      | .ok k =>
        match loadLoop sha (s :: seen) rest with
        | .ok ks => .ok (k :: ks)
        | r => r
      | _ => .panic

/-- `load_cb58_keys`: split the text into lines, load each line in order
with duplicate detection, then shuffle if `permute` is set.  The unseeded
random shuffle is the external `rand` crate; it enters as the explicit
function argument `shuffle`. -/
def load_cb58_keys (sha : List Nat → List Nat) (shuffle : List Key → List Key)
    (d : List Char) (permute : Bool) : Res (List Key) :=
  match loadLoop sha [] (rustLines d) with
  | .ok keys => .ok (if permute then shuffle keys else keys)
  | r => r

/-- The key decoded from one line (total helper used to state what a
successful bulk load returns). -/
def decodedKey (sha : List Nat → List Nat) (s : List Char) : Key :=
  match Key.from_cb58 sha s with
  | .ok k => k
  | _ => ⟨0⟩

/-! ## Key info (`Key::to_info`) -/

/-- `key::secp256k1::Info` (the struct lives outside the excerpt; modelled
from the spec and from the fields `to_info` fills): it stores the CB58 and
hex encodings of the PRIVATE key next to the derived addresses, and is the
value the examples log with `log::info!`.  Address derivation
(`hrp_address`, `to_short_id`, `eth_address` of the public key) is outside
the excerpt; the address fields are filled from the explicit function
arguments of `to_info`. -/
structure Info where
  private_key_cb58 : List Char
  private_key_hex : List Char
  short_address : Nat
  eth_address : Nat
  deriving DecidableEq, Repr

/-- `Key::to_info`: fills `Info` with `to_cb58`, `to_hex` and the derived
addresses of the public key. -/
def Key.to_info (sha : List Nat → List Nat)
    (shortAddrOf ethAddrOf : ZMod ORDER → Nat) (k : Key) : Info :=
  { private_key_cb58 := k.to_cb58 sha
    private_key_hex := k.to_hex
    short_address := shortAddrOf k.to_public_key
    eth_address := ethAddrOf k.to_public_key }

/-! ## The KMS-backed Ethereum signer (`kms/aws/eth_signer.rs`) -/

/-- `kms/aws/cmk.rs::Cmk` (outside the excerpt; modelled from the spec):
a handle to an external key-management digest-signing operation plus the
externally-held public key.  `sign` is the outcome of the remote
digest-signing call (a raw, possibly non-canonical recoverable signature
over the digest, recovery id 0 or 1); `pubkeyH160` is
`to_public_key().to_h160()`, the Ethereum-style address bytes of the
remote public key, as a natural number. -/
structure Cmk where
  sign : List Nat → EcdsaSig
  pubkeyH160 : Nat

/-- `eth_signer.rs::Signer`: the remote signer value; owns the Cmk handle,
the bound chain id (a U256) and the address derived at construction. -/
structure Signer where
  inner : Cmk
  chain_id : Nat
  address : Nat

/-- Truncation of a U256 chain id by `as_u64`. -/
def u64Of (c : Nat) : Nat := c % 2 ^ 64

/-- `Signer::new`: derives the address from the externally-held public key
once, at construction, and caches it in the `address` field. -/
def Signer.new (inner : Cmk) (chain_id : Nat) : Signer :=
  { inner := inner, chain_id := chain_id, address := inner.pubkeyH160 }

/-- `signature.rs::rsig_to_ethsig` (outside the excerpt; modelled from the
spec): converts the raw recoverable signature to the canonical Ethereum
form: `s` is normalized to the lower half of the curve order (negating `s`
flips the recovery id), and `v` becomes the recovery id (0 or 1) plus 27. -/
def rsig_to_ethsig (sig : EcdsaSig) : EcdsaSig :=
  if 2 * sig.s ≤ ORDER then ⟨sig.r, sig.s, sig.v + 27⟩
  else ⟨sig.r, ORDER - sig.s, (1 - sig.v) + 27⟩

/-- `signature.rs::apply_eip155` (outside the excerpt; modelled from the
spec): folds the chain id into the `v` of an Ethereum-form signature:
`v = recovery_id + chain_id * 2 + 35`. -/
def apply_eip155 (sig : EcdsaSig) (chainId : Nat) : EcdsaSig :=
  ⟨sig.r, sig.s, (sig.v - 27) + chainId * 2 + 35⟩

/-- The recovery id (0 or 1) after low-S normalization of a raw remote
signature — the quantity the EIP-155 fold and the `+27` convention are
applied to. -/
def normRecid (sig : EcdsaSig) : Nat :=
  if 2 * sig.s ≤ ORDER then sig.v else 1 - sig.v

/-- `Signer::sign_digest_with_eip155`: remote digest signing, conversion to
Ethereum form, then exactly one EIP-155 fold. -/
def Signer.sign_digest_with_eip155 (s : Signer) (digest : List Nat)
    (chainId : Nat) : EcdsaSig :=
  apply_eip155 (rsig_to_ethsig (s.inner.sign digest)) chainId

/-- `Signer::sign_message`: EIP-191 prefixed hashing
(`ethers_core::utils::hash_message`, an external collaborator passed as
`hashMessage`), then digest signing with the EIP-155 fold at the signer's
bound chain id. -/
def Signer.sign_message (hashMessage : List Nat → List Nat) (s : Signer)
    (message : List Nat) : EcdsaSig :=
  s.sign_digest_with_eip155 (hashMessage message) (u64Of s.chain_id)

/-- `ethers_core::types::transaction::eip2718::TypedTransaction`, reduced
to what `sign_transaction` touches: an optional chain id and an opaque
body.  The signing hash (`sighash`) is an external collaborator passed as a
function argument. -/
structure EthTx where
  chain_id : Option Nat
  body : Nat
  deriving DecidableEq, Repr

/-- `TypedTransaction::set_chain_id` on a clone of the transaction. -/
def EthTx.setChainId (tx : EthTx) (c : Nat) : EthTx :=
  { tx with chain_id := some c }

/-- `Signer::sign_transaction`: clones the transaction, resolves the chain
id (the transaction's own if present, otherwise the signer's bound chain
id), sets the resolved chain id on the clone, computes the signing hash of
the clone, and signs that digest with the EIP-155 fold at the same resolved
chain id. -/
def Signer.sign_transaction (sighash : EthTx → List Nat) (s : Signer)
    (tx : EthTx) : EcdsaSig :=
  let chainId := tx.chain_id.getD (u64Of s.chain_id)
  let txc := tx.setChainId chainId
  s.sign_digest_with_eip155 (sighash txc) chainId

/-- `Signer::sign_typed_data`: EIP-712 encoding of the payload (external
`encode_eip712`, which can fail — surfaced as an error), remote signing of
the digest, conversion to Ethereum form, and NO EIP-155 fold. -/
def Signer.sign_typed_data (encodeEip712 : Nat → Option (List Nat))
    (s : Signer) (payload : Nat) : Res EcdsaSig :=
  match encodeEip712 payload with
  | none => .err .encodingFailure
  | some digest => .ok (rsig_to_ethsig (s.inner.sign digest))

/-- `Signer::with_chain_id`: rebinds the chain id on an owned copy of the
signer (`mut self` by value); every other field is untouched. -/
def Signer.with_chain_id (s : Signer) (c : Nat) : Signer :=
  { s with chain_id := c }

/-- `Signer::chain_id` accessor (`as_u64`). -/
def Signer.chainIdU64 (s : Signer) : Nat := u64Of s.chain_id

/-! ## Concrete collaborator stand-ins used by the witness statements -/

/-- A concrete stand-in for the external SHA-256 function (witnesses only;
the theorems hold for every hash function). -/
def shaStub : List Nat → List Nat := fun _ => List.replicate 32 7

/-- A concrete stand-in for the external EIP-191 message hasher. -/
def hashMsgStub : List Nat → List Nat := fun _ => List.replicate 32 1

/-- A concrete stand-in for the external transaction sighash. -/
def sighashStub : EthTx → List Nat :=
  fun tx => List.replicate 31 2 ++ [tx.chain_id.getD 0 % 256]

/-- A concrete stand-in for the external EIP-712 payload encoder. -/
def eip712Stub : Nat → Option (List Nat) := fun _ => some (List.replicate 32 3)

/-- A concrete stand-in for the remote KMS signing handle. -/
def cmkStub : Cmk :=
  { sign := fun _ => ⟨1, 1, 0⟩, pubkeyH160 := 5 }

/-- Whether a `Res` outcome is a success. -/
def Res.isOk {α : Type} : Res α → Bool
  | .ok _ => true
  | _ => false

/-! ## Theorems -/

theorem natToLE_length (l n : Nat) : (natToLE l n).length = l := by
  induction l generalizing n with
  | zero => rfl
  | succ l ih => simp [natToLE, ih]

theorem natToBE_length (l n : Nat) : (natToBE l n).length = l := by
  simp [natToBE, natToLE_length]

theorem natToLE_lt (l n : Nat) : ∀ b ∈ natToLE l n, b < 256 := by
  induction l generalizing n with
  | zero => intro b hb; simp [natToLE] at hb
  | succ l ih =>
    intro b hb
    simp only [natToLE, List.mem_cons] at hb
    rcases hb with h | h
    · subst h; exact Nat.mod_lt _ (by omega)
    · exact ih _ b h

theorem natToBE_lt (l n : Nat) : ∀ b ∈ natToBE l n, b < 256 := by
  intro b hb
  exact natToLE_lt l n b (List.mem_reverse.mp hb)

theorem leToNat_natToLE (l n : Nat) (h : n < 256 ^ l) :
    leToNat (natToLE l n) = n := by
  induction l generalizing n with
  | zero => simp [Nat.pow_zero] at h; simp [natToLE, leToNat, h]
  | succ l ih =>
    have hdiv : n / 256 < 256 ^ l := by
      rw [Nat.div_lt_iff_lt_mul (by omega)]
      calc n < 256 ^ (l + 1) := h
        _ = 256 ^ l * 256 := by ring
    simp only [natToLE, leToNat, ih (n / 256) hdiv]
    exact Nat.mod_add_div n 256

theorem beToNat_natToBE (l n : Nat) (h : n < 256 ^ l) :
    beToNat (natToBE l n) = n := by
  simp [beToNat, natToBE, leToNat_natToLE l n h]

theorem natToLE_leToNat (bs : List Nat) (h : ∀ b ∈ bs, b < 256) :
    natToLE bs.length (leToNat bs) = bs := by
  induction bs with
  | nil => rfl
  | cons b bs ih =>
    have hb : b < 256 := h b (by simp)
    simp only [List.length_cons, natToLE, leToNat]
    have hmod : (b + 256 * leToNat bs) % 256 = b := by
      rw [Nat.add_mul_mod_self_left]; omega
    have hdiv : (b + 256 * leToNat bs) / 256 = leToNat bs := by
      rw [Nat.add_mul_div_left _ _ (by omega : (0:Nat) < 256)]
      omega
    rw [hmod, hdiv, ih (fun x hx => h x (by simp [hx]))]

theorem natToBE_beToNat (bs : List Nat) (h : ∀ b ∈ bs, b < 256) :
    natToBE bs.length (beToNat bs) = bs := by
  have := natToLE_leToNat bs.reverse (fun b hb => h b (List.mem_reverse.mp hb))
  rw [List.length_reverse] at this
  simp [natToBE, beToNat, this]

theorem leToNat_lt (bs : List Nat) (h : ∀ b ∈ bs, b < 256) :
    leToNat bs < 256 ^ bs.length := by
  induction bs with
  | nil => simp [leToNat]
  | cons b bs ih =>
    have hb : b < 256 := h b (by simp)
    have ht := ih (fun x hx => h x (by simp [hx]))
    simp only [leToNat, List.length_cons, pow_succ]
    calc b + 256 * leToNat bs < 256 + 256 * leToNat bs := by omega
      _ = 256 * (leToNat bs + 1) := by ring
      _ ≤ 256 * 256 ^ bs.length := by
          exact Nat.mul_le_mul_left 256 (by omega)
      _ = 256 ^ bs.length * 256 := by ring

theorem beToNat_lt (bs : List Nat) (h : ∀ b ∈ bs, b < 256) :
    beToNat bs < 256 ^ bs.length := by
  have := leToNat_lt bs.reverse (fun b hb => h b (List.mem_reverse.mp hb))
  rwa [List.length_reverse] at this

/-! ## Minimal encodings -/

theorem natToLEMinAux_zero (fuel : Nat) : natToLEMinAux fuel 0 = [] := by
  cases fuel <;> simp [natToLEMinAux]

theorem natToLEMinAux_adequate (f1 : Nat) :
    ∀ f2 n, n ≤ f1 → n ≤ f2 → natToLEMinAux f1 n = natToLEMinAux f2 n := by
  induction f1 with
  | zero =>
    intro f2 n h1 _
    have : n = 0 := by omega
    subst this
    rw [natToLEMinAux_zero, natToLEMinAux_zero]
  | succ f1 ih =>
    intro f2 n h1 h2
    by_cases hn : n = 0
    · subst hn; rw [natToLEMinAux_zero, natToLEMinAux_zero]
    · cases f2 with
      | zero => omega
      | succ g =>
        simp only [natToLEMinAux, if_neg hn]
        have hdiv : n / 256 < n := Nat.div_lt_self (by omega) (by omega)
        rw [ih g (n / 256) (by omega) (by omega)]

theorem natToLEMin_unfold (n : Nat) :
    natToLEMin n = if n = 0 then [] else n % 256 :: natToLEMin (n / 256) := by
  cases n with
  | zero => simp [natToLEMin, natToLEMinAux]
  | succ m =>
    rw [natToLEMin, natToLEMin, natToLEMinAux]
    simp only [Nat.succ_ne_zero, if_false]
    have hdiv : (m + 1) / 256 ≤ m := by
      have := Nat.div_lt_self (Nat.succ_pos m) (by omega : (1:Nat) < 256)
      omega
    rw [natToLEMinAux_adequate m _ ((m + 1) / 256) hdiv le_rfl]

theorem leToNat_pos (bs : List Nat) (hne : bs ≠ [])
    (hlast : bs.getLast? ≠ some 0) : 0 < leToNat bs := by
  induction bs with
  | nil => exact absurd rfl hne
  | cons b bs ih =>
    cases bs with
    | nil =>
      simp only [List.getLast?_singleton] at hlast
      have : b ≠ 0 := fun h => hlast (by rw [h])
      simp [leToNat]; omega
    | cons c cs =>
      have hl : (b :: c :: cs).getLast? = (c :: cs).getLast? := by
        simp [List.getLast?_cons_cons]
      rw [hl] at hlast
      have := ih (by simp) hlast
      rw [leToNat]; omega

theorem natToLEMin_leToNat (bs : List Nat) (h : ∀ b ∈ bs, b < 256)
    (hlast : bs.getLast? ≠ some 0) : natToLEMin (leToNat bs) = bs := by
  induction bs with
  | nil => simp [leToNat, natToLEMin, natToLEMinAux]
  | cons b bs ih =>
    cases hbs : bs with
    | nil =>
      subst hbs
      simp only [List.getLast?_singleton] at hlast
      have hb : b < 256 := h b (by simp)
      have hbne : b ≠ 0 := fun hh => hlast (by rw [hh])
      rw [leToNat, leToNat]
      rw [natToLEMin_unfold]
      have : b + 256 * 0 ≠ 0 := by omega
      simp only [this, if_false]
      have hm : (b + 256 * 0) % 256 = b := by omega
      have hd : (b + 256 * 0) / 256 = 0 := by omega
      rw [hm, hd]
      simp [natToLEMin, natToLEMinAux]
    | cons c cs =>
      rw [← hbs]
      have hlast' : bs.getLast? ≠ some 0 := by
        have hl : (b :: bs).getLast? = bs.getLast? := by
          rw [hbs]; simp [List.getLast?_cons_cons]
        rwa [hl] at hlast
      have hbsne : bs ≠ [] := by rw [hbs]; simp
      have hpos := leToNat_pos bs hbsne hlast'
      have hb : b < 256 := h b (by simp)
      rw [leToNat, natToLEMin_unfold]
      have hne : b + 256 * leToNat bs ≠ 0 := by omega
      simp only [hne, if_false]
      have hm : (b + 256 * leToNat bs) % 256 = b := by
        rw [Nat.add_mul_mod_self_left]; omega
      have hd : (b + 256 * leToNat bs) / 256 = leToNat bs := by
        rw [Nat.add_mul_div_left _ _ (by omega : (0:Nat) < 256)]; omega
      rw [hm, hd, ih (fun x hx => h x (by simp [hx])) hlast']

theorem prefixOf_iff (p l : List Char) : p.isPrefixOf l ↔ p <+: l := by
  exact List.isPrefixOf_iff_prefix

theorem trimPfxAllAux_stop (fuel : Nat) (p s : List Char)
    (h : ¬ (p ≠ [] ∧ p.isPrefixOf s)) : trimPfxAllAux fuel p s = s := by
  cases fuel with
  | zero => rfl
  | succ fuel => rw [trimPfxAllAux, if_neg h]

theorem trimPfxAllAux_adequate (f1 : Nat) :
    ∀ f2 p s, s.length ≤ f1 → s.length ≤ f2 →
      trimPfxAllAux f1 p s = trimPfxAllAux f2 p s := by
  induction f1 with
  | zero =>
    intro f2 p s h1 _
    have hs : s = [] := List.length_eq_zero.mp (by omega)
    subst hs
    have hcond : ¬ (p ≠ [] ∧ p.isPrefixOf ([] : List Char)) := by
      rintro ⟨hne, hpre⟩
      have := ((prefixOf_iff _ _).mp hpre).length_le
      have := List.length_pos.mpr hne
      simp at this ⊢
      omega
    rw [trimPfxAllAux_stop _ _ _ hcond, trimPfxAllAux_stop _ _ _ hcond]
  | succ f1 ih =>
    intro f2 p s h1 h2
    by_cases hcond : p ≠ [] ∧ p.isPrefixOf s
    · have hplen : 0 < p.length := List.length_pos.mpr hcond.1
      have hle : p.length ≤ s.length :=
        ((prefixOf_iff _ _).mp hcond.2).length_le
      cases f2 with
      | zero => omega
      | succ g =>
        rw [trimPfxAllAux, if_pos hcond, trimPfxAllAux, if_pos hcond]
        exact ih g p (s.drop p.length)
          (by simp only [List.length_drop]; omega)
          (by simp only [List.length_drop]; omega)
    · rw [trimPfxAllAux_stop _ _ _ hcond, trimPfxAllAux_stop _ _ _ hcond]

theorem trimPfxAll_step (p s : List Char) (hp : p ≠ []) :
    trimPfxAll p (p ++ s) = trimPfxAll p s := by
  have hpre : p.isPrefixOf (p ++ s) := by
    rw [prefixOf_iff]
    exact ⟨s, rfl⟩
  have hplen : 0 < p.length := List.length_pos.mpr hp
  rw [trimPfxAll, trimPfxAll]
  have hlen : (p ++ s).length = p.length + s.length := List.length_append p s
  rcases Nat.exists_eq_add_of_lt (show 0 < (p ++ s).length by rw [hlen]; omega)
    with ⟨t, ht⟩
  rw [ht, trimPfxAllAux, if_pos ⟨hp, hpre⟩, List.drop_left]
  exact trimPfxAllAux_adequate _ _ p s (by rw [hlen] at ht; omega) le_rfl

theorem trimPfxAll_eq_self (p s : List Char) (hnp : ¬ p.isPrefixOf s) :
    trimPfxAll p s = s :=
  trimPfxAllAux_stop _ _ _ (fun h => hnp h.2)

theorem idxIn_hexDigitChar (d : Nat) (h : d < 16) :
    idxIn (hexDigitChar d) hexAlpha = some d := by
  interval_cases d <;> rfl

theorem hexDecode_hexEncode (bs : List Nat) (h : ∀ b ∈ bs, b < 256) :
    hexDecode (hexEncode bs) = some bs := by
  induction bs with
  | nil => rfl
  | cons b bs ih =>
    have hb : b < 256 := h b (by simp)
    have h1 : b / 16 < 16 := by omega
    have h2 : b % 16 < 16 := by omega
    simp only [hexEncode, hexDecode, idxIn_hexDigitChar _ h1,
      idxIn_hexDigitChar _ h2, ih (fun x hx => h x (by simp [hx]))]
    have : b / 16 * 16 + b % 16 = b := by omega
    rw [this]

theorem hexDigitChar_mem (d : Nat) : hexDigitChar d ∈ hexAlpha := by
  by_cases h : d < hexAlpha.length
  · rw [hexDigitChar, hexAlpha.getD_eq_getElem '0' h]
    exact hexAlpha.getElem_mem h
  · rw [hexDigitChar, List.getD_eq_default _ _ (by omega)]
    decide

theorem hexEncode_mem (bs : List Nat) : ∀ c ∈ hexEncode bs, c ∈ hexAlpha := by
  induction bs with
  | nil => intro c hc; simp [hexEncode] at hc
  | cons b bs ih =>
    intro c hc
    simp only [hexEncode, List.mem_cons] at hc
    rcases hc with h | h | h
    · subst h; exact hexDigitChar_mem _
    · subst h; exact hexDigitChar_mem _
    · exact ih c h

/-! ## Base-58 roundtrip lemmas -/

theorem natToB58Aux_zero (fuel : Nat) : natToB58Aux fuel 0 = [] := by
  cases fuel <;> simp [natToB58Aux]

theorem natToB58Aux_adequate (f1 : Nat) :
    ∀ f2 n, n ≤ f1 → n ≤ f2 → natToB58Aux f1 n = natToB58Aux f2 n := by
  induction f1 with
  | zero =>
    intro f2 n h1 _
    have : n = 0 := by omega
    subst this
    rw [natToB58Aux_zero, natToB58Aux_zero]
  | succ f1 ih =>
    intro f2 n h1 h2
    by_cases hn : n = 0
    · subst hn; rw [natToB58Aux_zero, natToB58Aux_zero]
    · cases f2 with
      | zero => omega
      | succ g =>
        simp only [natToB58Aux, if_neg hn]
        have hdiv : n / 58 < n := Nat.div_lt_self (by omega) (by omega)
        rw [ih g (n / 58) (by omega) (by omega)]

theorem natToB58_unfold (n : Nat) :
    natToB58 n = if n = 0 then [] else n % 58 :: natToB58 (n / 58) := by
  cases n with
  | zero => simp [natToB58, natToB58Aux]
  | succ m =>
    rw [natToB58, natToB58, natToB58Aux]
    simp only [Nat.succ_ne_zero, if_false]
    have hdiv : (m + 1) / 58 ≤ m := by
      have := Nat.div_lt_self (Nat.succ_pos m) (by omega : (1:Nat) < 58)
      omega
    rw [natToB58Aux_adequate m _ ((m + 1) / 58) hdiv le_rfl]

theorem b58ToNat_natToB58 (n : Nat) : b58ToNat (natToB58 n) = n := by
  induction n using Nat.strong_induction_on with
  | _ n ih =>
    rw [natToB58_unfold]
    by_cases h : n = 0
    · simp [h, b58ToNat]
    · simp only [h, if_false, b58ToNat]
      rw [ih (n / 58) (Nat.div_lt_self (by omega) (by omega))]
      omega

theorem natToB58_lt (n : Nat) : ∀ d ∈ natToB58 n, d < 58 := by
  induction n using Nat.strong_induction_on with
  | _ n ih =>
    intro d hd
    rw [natToB58_unfold] at hd
    by_cases h : n = 0
    · simp [h] at hd
    · simp only [h, if_false, List.mem_cons] at hd
      rcases hd with h1 | h1
      · subst h1; exact Nat.mod_lt _ (by omega)
      · exact ih (n / 58) (Nat.div_lt_self (by omega) (by omega)) d h1

theorem natToB58_eq_nil_iff (n : Nat) : natToB58 n = [] ↔ n = 0 := by
  rw [natToB58_unfold]
  by_cases h : n = 0 <;> simp [h]

theorem natToB58_getLast_ne_zero (n : Nat) (hn : n ≠ 0) :
    (natToB58 n).getLast? ≠ some 0 := by
  induction n using Nat.strong_induction_on with
  | _ n ih =>
    rw [natToB58_unfold]
    simp only [hn, if_false]
    by_cases hq : n / 58 = 0
    · have h58 : n < 58 := by
        by_contra hge
        have h1 : 1 ≤ n / 58 := (Nat.le_div_iff_mul_le (by omega)).mpr (by omega)
        omega
      have hmod : n % 58 = n := Nat.mod_eq_of_lt h58
      rw [(natToB58_eq_nil_iff (n / 58)).mpr hq]
      simp [hmod, hn]
    · have hih := ih (n / 58) (Nat.div_lt_self (by omega) (by omega)) hq
      cases hshape : natToB58 (n / 58) with
      | nil => exact absurd ((natToB58_eq_nil_iff (n / 58)).mp hshape) hq
      | cons d ds =>
        rw [hshape] at hih
        rw [List.getLast?_cons_cons]
        exact hih

theorem idxIn_b58DigitChar : ∀ d < 58, idxIn (b58DigitChar d) b58Alpha = some d := by
  decide

theorem charsToB58Digits_map (ds : List Nat) (h : ∀ d ∈ ds, d < 58) :
    charsToB58Digits (ds.map b58DigitChar) = some ds := by
  induction ds with
  | nil => rfl
  | cons d ds ih =>
    have hd := idxIn_b58DigitChar d (h d (by simp))
    simp only [List.map_cons, charsToB58Digits, hd,
      ih (fun x hx => h x (by simp [hx]))]

theorem b58DigitChar_mem (d : Nat) : b58DigitChar d ∈ b58Alpha := by
  by_cases h : d < b58Alpha.length
  · rw [b58DigitChar, b58Alpha.getD_eq_getElem '1' h]
    exact b58Alpha.getElem_mem h
  · rw [b58DigitChar, List.getD_eq_default _ _ (by omega)]
    decide

theorem b58DigitChar_ne_one (d : Nat) (h : d < 58) (hd : d ≠ 0) :
    b58DigitChar d ≠ '1' := by
  revert hd
  revert h
  revert d
  decide

theorem countLeadZeros_le (bs : List Nat) : countLeadZeros bs ≤ bs.length := by
  induction bs with
  | nil => simp [countLeadZeros]
  | cons b bs ih =>
    by_cases h : b = 0 <;> simp [countLeadZeros, h] <;> omega

theorem countLeadZeros_decomp (bs : List Nat) :
    bs = List.replicate (countLeadZeros bs) 0 ++ bs.drop (countLeadZeros bs) := by
  induction bs with
  | nil => rfl
  | cons b bs ih =>
    by_cases h : b = 0
    · subst h
      simp only [countLeadZeros, if_pos rfl, List.replicate_succ,
        List.cons_append, List.drop_succ_cons]
      exact congrArg _ ih
    · simp [countLeadZeros, h]

theorem head_drop_countLeadZeros (bs : List Nat) :
    (bs.drop (countLeadZeros bs)).head? ≠ some 0 := by
  induction bs with
  | nil => simp [countLeadZeros]
  | cons b bs ih =>
    by_cases h : b = 0
    · subst h
      simpa [countLeadZeros] using ih
    · simp [countLeadZeros, h]

theorem leToNat_append_zeros (xs : List Nat) (z : Nat) :
    leToNat (xs ++ List.replicate z 0) = leToNat xs := by
  induction xs with
  | nil =>
    simp only [List.nil_append]
    induction z with
    | zero => rfl
    | succ z ihz => simp [List.replicate_succ, leToNat, ihz]
  | cons x xs ih => simp [leToNat, ih]

theorem beToNat_zeros_append (z : Nat) (rest : List Nat) :
    beToNat (List.replicate z 0 ++ rest) = beToNat rest := by
  simp only [beToNat, List.reverse_append, List.reverse_replicate]
  exact leToNat_append_zeros rest.reverse z

theorem countLeadOnes_replicate_append (z : Nat) (tail : List Char)
    (h : tail.head? ≠ some '1') :
    countLeadOnes (List.replicate z '1' ++ tail) = z := by
  induction z with
  | zero =>
    simp only [List.replicate_zero, List.nil_append]
    cases tail with
    | nil => rfl
    | cons c cs =>
      simp only [List.head?_cons] at h
      have : c ≠ '1' := fun hh => h (by rw [hh])
      simp [countLeadOnes, this]
  | succ z ih =>
    simp [List.replicate_succ, countLeadOnes, ih]

theorem b58Decode_b58Encode (bytes : List Nat) (h : ∀ b ∈ bytes, b < 256) :
    b58Decode (b58Encode bytes) = some bytes := by
  have hz := countLeadZeros_decomp bytes
  set z := countLeadZeros bytes with hzdef
  set rest := bytes.drop z with hrest
  have hrest_head : rest.head? ≠ some 0 := head_drop_countLeadZeros bytes
  have hrest_le : ∀ b ∈ rest, b < 256 :=
    fun b hb => h b ((List.drop_sublist z bytes).mem hb)
  have hn : beToNat bytes = beToNat rest := by
    conv_lhs => rw [hz]
    exact beToNat_zeros_append z rest
  set n := beToNat rest with hndef
  have htail :
      b58Encode bytes =
        List.replicate z '1' ++ ((natToB58 n).map b58DigitChar).reverse := by
    rw [b58Encode, ← hzdef, hn]
  have htail_head : (((natToB58 n).map b58DigitChar).reverse).head? ≠ some '1' := by
    rw [List.head?_reverse, List.getLast?_map]
    by_cases h0 : n = 0
    · rw [(natToB58_eq_nil_iff n).mpr h0]
      simp
    · cases hshape : (natToB58 n).getLast? with
      | none => simp
      | some d =>
        have hd_mem : d ∈ natToB58 n := List.mem_of_getLast?_eq_some hshape
        have hd_lt : d < 58 := natToB58_lt n d hd_mem
        have hd_ne : d ≠ 0 := by
          intro hdz
          exact natToB58_getLast_ne_zero n h0 (by rw [hshape, hdz])
        intro hcontr
        have hcontr' : some (b58DigitChar d) = some '1' := hcontr
        exact b58DigitChar_ne_one d hd_lt hd_ne (by injection hcontr')
  rw [b58Decode, htail]
  have hco :
      countLeadOnes
        (List.replicate z '1' ++ ((natToB58 n).map b58DigitChar).reverse) = z :=
    countLeadOnes_replicate_append z _ htail_head
  simp only [hco]
  have hdrop :
      (List.replicate z '1' ++ ((natToB58 n).map b58DigitChar).reverse).drop z =
        ((natToB58 n).map b58DigitChar).reverse := by
    have := List.drop_left (List.replicate z '1')
      (((natToB58 n).map b58DigitChar).reverse)
    rwa [List.length_replicate] at this
  rw [hdrop]
  have hmaprev : ((natToB58 n).map b58DigitChar).reverse =
      (natToB58 n).reverse.map b58DigitChar := (List.map_reverse _ _).symm
  rw [hmaprev]
  rw [charsToB58Digits_map _
    (fun d hd => natToB58_lt n d (List.mem_reverse.mp hd))]
  show some (List.replicate z 0 ++
      natToBEMin (b58ToNat ((natToB58 n).reverse).reverse)) = some bytes
  rw [List.reverse_reverse, b58ToNat_natToB58]
  have hbemin : natToBEMin n = rest := by
    rw [natToBEMin, hndef, beToNat]
    rw [natToLEMin_leToNat rest.reverse
      (fun b hb => hrest_le b (List.mem_reverse.mp hb))
      (by rw [List.getLast?_reverse]; exact hrest_head)]
    exact List.reverse_reverse rest
  rw [hbemin, ← hz]

theorem b58Encode_mem (bytes : List Nat) : ∀ c ∈ b58Encode bytes, c ∈ b58Alpha := by
  intro c hc
  rw [b58Encode] at hc
  rcases List.mem_append.mp hc with h | h
  · rw [List.eq_of_mem_replicate h]
    decide
  · rcases List.mem_reverse.mp h with hm
    rcases List.mem_map.mp hm with ⟨d, _, hdc⟩
    rw [← hdc]
    exact b58DigitChar_mem d

theorem ORDER_odd : ORDER % 2 = 1 := by decide

theorem recoverPoint_pointX (P : ZMod ORDER) :
    recoverPoint (pointX P) (pointRecid P) = P ∧
      recoverPoint (pointX P) (1 - pointRecid P) = -P := by
  have hval : P.val < ORDER := ZMod.val_lt P
  by_cases h : 2 * P.val ≤ ORDER
  · have hc : (P.val : ZMod ORDER) = P := ZMod.natCast_rightInverse P
    simp only [pointX, pointRecid, if_pos h]
    constructor
    · simp [recoverPoint, hc]
    · simp [recoverPoint, hc]
  · have hle : P.val ≤ ORDER := le_of_lt hval
    have hcast : ((ORDER - P.val : Nat) : ZMod ORDER) = -P := by
      push_cast [hle]
      rw [ZMod.natCast_self, ZMod.natCast_rightInverse P]
      ring
    simp only [pointX, pointRecid, if_neg h]
    constructor
    · simp [recoverPoint, hcast]
    · simp [recoverPoint, hcast]

/-! ## Helper lemmas about `Key` encodings -/

theorem not_isPrefixOf_of_chars (p l alpha : List Char) (c : Char)
    (hc : c ∈ p) (hca : c ∉ alpha) (hl : ∀ x ∈ l, x ∈ alpha) :
    ¬ p.isPrefixOf l := by
  intro h
  have hpre := (prefixOf_iff _ _).mp h
  exact hca (hl c (hpre.sublist.mem hc))

theorem ORDER_lt_pow : ORDER < 256 ^ 32 := by decide

theorem Key.to_bytes_length (k : Key) : k.to_bytes.length = 32 :=
  natToBE_length 32 k.scalar

theorem Key.to_bytes_lt (k : Key) : ∀ b ∈ k.to_bytes, b < 256 :=
  natToBE_lt 32 k.scalar

theorem Key.beToNat_to_bytes (k : Key) (hk : k.valid) :
    beToNat k.to_bytes = k.scalar :=
  beToNat_natToBE 32 k.scalar (lt_trans hk.2 ORDER_lt_pow)

theorem Key.from_bytes_to_bytes (k : Key) (hk : k.valid) :
    Key.from_bytes k.to_bytes = .ok k := by
  rw [Key.from_bytes]
  rw [if_neg (by rw [Key.to_bytes_length k]; omega)]
  have hbeq := Key.beToNat_to_bytes k hk
  simp only [hbeq]
  rw [if_neg (by rcases hk with ⟨h1, h2⟩; omega)]

theorem trim_hexPfx (bs : List Nat) :
    trimPfxAll hexPfx (hexPfx ++ hexEncode bs) = hexEncode bs := by
  rw [trimPfxAll_step _ _ (by decide)]
  exact trimPfxAll_eq_self _ _
    (not_isPrefixOf_of_chars hexPfx (hexEncode bs) hexAlpha 'x'
      (by decide) (by decide) (hexEncode_mem bs))

theorem Key.from_hex_to_hex (k : Key) (hk : k.valid) :
    Key.from_hex k.to_hex = .ok k := by
  rw [Key.from_hex, Key.to_hex, trim_hexPfx]
  rw [hexDecode_hexEncode k.to_bytes (Key.to_bytes_lt k)]
  exact Key.from_bytes_to_bytes k hk

theorem trim_pkPfx (bytes : List Nat) :
    trimPfxAll pkPfx (pkPfx ++ b58Encode bytes) = b58Encode bytes := by
  rw [trimPfxAll_step _ _ (by decide)]
  exact trimPfxAll_eq_self _ _
    (not_isPrefixOf_of_chars pkPfx (b58Encode bytes) b58Alpha '-'
      (by decide) (by decide) (b58Encode_mem bytes))

theorem decodeCb58WithChecksum_of_decode (sha : List Nat → List Nat)
    (s : List Char) (bytes : List Nat) (h : b58Decode s = some bytes) :
    decodeCb58WithChecksum sha s =
      if bytes.length < 4 then .err .cb58DecodeFailure
      else if bytes.drop (bytes.length - 4) =
          (sha (sha (bytes.take (bytes.length - 4)))).take 4 then
        .ok (bytes.take (bytes.length - 4))
      else .err .checksumMismatch := by
  rw [decodeCb58WithChecksum, h]

theorem decodeCb58_encodeCb58 (sha : List Nat → List Nat)
    (hsha4 : ∀ x, 4 ≤ (sha x).length)
    (hsha256 : ∀ x, ∀ b ∈ sha x, b < 256)
    (payload : List Nat) (hp : ∀ b ∈ payload, b < 256) :
    decodeCb58WithChecksum sha (encodeCb58WithChecksum sha payload) =
      .ok payload := by
  set cks := (sha (sha payload)).take 4 with hcks
  have hcks_lt : ∀ b ∈ cks, b < 256 :=
    fun b hb => hsha256 _ b (List.take_subset 4 _ hb)
  have hcks_len : cks.length = 4 := by
    rw [hcks, List.length_take]
    exact Nat.min_eq_left (hsha4 _)
  have hall : ∀ b ∈ payload ++ cks, b < 256 := by
    intro b hb
    rcases List.mem_append.mp hb with h | h
    · exact hp b h
    · exact hcks_lt b h
  have hdec : b58Decode (encodeCb58WithChecksum sha payload) =
      some (payload ++ cks) := by
    rw [encodeCb58WithChecksum, ← hcks]
    exact b58Decode_b58Encode _ hall
  rw [decodeCb58WithChecksum_of_decode sha _ _ hdec]
  have hlen : (payload ++ cks).length = payload.length + 4 := by
    rw [List.length_append, hcks_len]
  rw [hlen, if_neg (by omega)]
  have hsub : payload.length + 4 - 4 = payload.length := by omega
  have htake : (payload ++ cks).take (payload.length + 4 - 4) = payload := by
    rw [hsub]; exact List.take_left payload cks
  have hdrop : (payload ++ cks).drop (payload.length + 4 - 4) = cks := by
    rw [hsub]; exact List.drop_left payload cks
  rw [htake, hdrop, if_pos rfl]

theorem Key.from_cb58_to_cb58 (sha : List Nat → List Nat)
    (hsha4 : ∀ x, 4 ≤ (sha x).length)
    (hsha256 : ∀ x, ∀ b ∈ sha x, b < 256)
    (k : Key) (hk : k.valid) :
    Key.from_cb58 sha (k.to_cb58 sha) = .ok k := by
  rw [Key.from_cb58, Key.to_cb58, encodeCb58WithChecksum, trim_pkPfx,
    ← encodeCb58WithChecksum]
  rw [decodeCb58_encodeCb58 sha hsha4 hsha256 k.to_bytes (Key.to_bytes_lt k)]
  exact Key.from_bytes_to_bytes k hk

/-! ## Signature-shape lemmas -/

theorem pointX_lt (P : ZMod ORDER) : pointX P < ORDER := by
  have hval : P.val < ORDER := ZMod.val_lt P
  rw [pointX]
  split
  · exact hval
  · omega

theorem pointRecid_le (P : ZMod ORDER) : pointRecid P ≤ 1 := by
  rw [pointRecid]; split <;> omega

theorem sign_digest_ok_shape (k : Key) (nonce nonceInv : ZMod ORDER)
    (digest : List Nat) (sig : EcdsaSig)
    (hsig : k.sign_digest nonce nonceInv digest = .ok sig) :
    digest.length = 32 ∧
    sig.r = pointX nonce ∧
    ((2 * (sigS k nonce nonceInv digest).val ≤ ORDER ∧
        sig.s = (sigS k nonce nonceInv digest).val ∧
        sig.v = pointRecid nonce) ∨
      (¬ 2 * (sigS k nonce nonceInv digest).val ≤ ORDER ∧
        sig.s = ORDER - (sigS k nonce nonceInv digest).val ∧
        sig.v = 1 - pointRecid nonce)) := by
  rw [Key.sign_digest] at hsig
  by_cases hlen : digest.length ≠ 32
  · rw [if_pos hlen] at hsig
    exact absurd hsig (by simp)
  · rw [if_neg hlen] at hsig
    by_cases hz : pointX nonce = 0 ∨ sigS k nonce nonceInv digest = 0
    · rw [if_pos hz] at hsig
      exact absurd hsig (by simp)
    · rw [if_neg hz] at hsig
      refine ⟨by omega, ?_⟩
      by_cases hlow : 2 * (sigS k nonce nonceInv digest).val ≤ ORDER
      · rw [if_pos hlow] at hsig
        injection hsig with h
        subst h
        exact ⟨rfl, Or.inl ⟨hlow, rfl, rfl⟩⟩
      · rw [if_neg hlow] at hsig
        injection hsig with h
        subst h
        exact ⟨rfl, Or.inr ⟨hlow, rfl, rfl⟩⟩

/-- C2: for every 32-byte digest and every validly constructed key,
`sign_digest` yields a recoverable signature from which standard ECDSA
public-key recovery, using the embedded recovery id, returns exactly
`to_public_key` — including when low-S canonicalization negated `s` and
flipped the recovery id.  The RFC6979 nonce and the modular inverses of the
nonce and of `r` are the explicit arguments `nonce`, `nonceInv`, `rInv`. -/
theorem c2_sign_digest_recovery (k : Key) (digest : List Nat)
    (nonce nonceInv rInv : ZMod ORDER) (sig : EcdsaSig)
    (hk : k.valid) (hlen : digest.length = 32)
    (hnonce : nonce * nonceInv = 1)
    (hrInv : (pointX nonce : ZMod ORDER) * rInv = 1)
    (hsig : k.sign_digest nonce nonceInv digest = .ok sig) :
    ecdsaRecover sig (beToNat digest : ZMod ORDER) rInv = k.to_public_key := by
  obtain ⟨-, hr, hcase⟩ := sign_digest_ok_shape k nonce nonceInv digest sig hsig
  have hrec := recoverPoint_pointX nonce
  rcases hcase with ⟨hlow, hs, hv⟩ | ⟨hlow, hs, hv⟩
  · rw [ecdsaRecover, hr, hs, hv, hrec.1]
    rw [ZMod.natCast_rightInverse (sigS k nonce nonceInv digest)]
    rw [sigS, Key.to_public_key]
    linear_combination
      (rInv * ((beToNat digest : ZMod ORDER) +
        (pointX nonce : ZMod ORDER) * (k.scalar : ZMod ORDER))) * hnonce +
      (k.scalar : ZMod ORDER) * hrInv
  · rw [ecdsaRecover, hr, hs, hv, hrec.2]
    have hvl : (sigS k nonce nonceInv digest).val ≤ ORDER :=
      le_of_lt (ZMod.val_lt _)
    have hcast : ((ORDER - (sigS k nonce nonceInv digest).val : Nat) :
        ZMod ORDER) = - sigS k nonce nonceInv digest := by
      push_cast [hvl]
      rw [ZMod.natCast_self, ZMod.natCast_rightInverse]
      ring
    rw [hcast, sigS, Key.to_public_key]
    linear_combination
      (rInv * ((beToNat digest : ZMod ORDER) +
        (pointX nonce : ZMod ORDER) * (k.scalar : ZMod ORDER))) * hnonce +
      (k.scalar : ZMod ORDER) * hrInv

/-- C2 witness: concrete instance with key scalar 2, zero digest, nonce 1. -/
theorem c2_sign_digest_recovery_witness :
    Key.valid ⟨2⟩ ∧ (1 : ZMod ORDER) * 1 = 1 ∧
    Key.sign_digest ⟨2⟩ 1 1 (List.replicate 32 0) = .ok ⟨1, 2, 0⟩ ∧
    ecdsaRecover ⟨1, 2, 0⟩ (beToNat (List.replicate 32 0) : ZMod ORDER) 1 =
      Key.to_public_key ⟨2⟩ :=
  ⟨by decide, by decide, by decide,
   c2_sign_digest_recovery ⟨2⟩ (List.replicate 32 0) 1 1 1 ⟨1, 2, 0⟩
     (by decide) (by decide) (by decide) (by decide) (by decide)⟩

/-- C3: every signature returned by `sign_digest` is exactly 65 bytes in
the layout `r(32) ++ s(32) ++ v(1)` (the `r` and `s` fields are recoverable
from the byte layout), with the recovery id in `[0, 3]` and with `s`
canonicalized to the lower half of the curve order. -/
theorem c3_sig_wire_format (k : Key) (nonce nonceInv : ZMod ORDER)
    (digest : List Nat) (sig : EcdsaSig)
    (hsig : k.sign_digest nonce nonceInv digest = .ok sig) :
    sig.to_bytes.length = 65 ∧
    sig.to_bytes = natToBE 32 sig.r ++ natToBE 32 sig.s ++ [sig.v] ∧
    beToNat (sig.to_bytes.take 32) = sig.r ∧
    beToNat ((sig.to_bytes.drop 32).take 32) = sig.s ∧
    sig.to_bytes.getLast? = some sig.v ∧
    sig.v ≤ 3 ∧
    sig.s ≤ ORDER / 2 := by
  obtain ⟨-, hr, hcase⟩ := sign_digest_ok_shape k nonce nonceInv digest sig hsig
  have hval_lt : (sigS k nonce nonceInv digest).val < ORDER := ZMod.val_lt _
  have hs_half : sig.s ≤ ORDER / 2 := by
    rcases hcase with ⟨hlow, hs, -⟩ | ⟨hlow, hs, -⟩
    · rw [hs, Nat.le_div_iff_mul_le (by omega : 0 < 2)]
      omega
    · rw [hs, Nat.le_div_iff_mul_le (by omega : 0 < 2)]
      omega
  have hv_le : sig.v ≤ 3 := by
    have := pointRecid_le nonce
    rcases hcase with ⟨-, -, hv⟩ | ⟨-, -, hv⟩ <;> rw [hv] <;> omega
  have hr_lt : sig.r < 256 ^ 32 := by
    rw [hr]; exact lt_trans (pointX_lt nonce) ORDER_lt_pow
  have hs_lt : sig.s < 256 ^ 32 := by
    have hhalf : ORDER / 2 < ORDER := by
      exact Nat.div_lt_self (by rw [ORDER]; omega) (by omega)
    exact lt_trans (lt_of_le_of_lt hs_half hhalf) ORDER_lt_pow
  have hlenA : (natToBE 32 sig.r).length = 32 := natToBE_length 32 sig.r
  have hlenB : (natToBE 32 sig.s).length = 32 := natToBE_length 32 sig.s
  refine ⟨?_, rfl, ?_, ?_, ?_, hv_le, hs_half⟩
  · simp [EcdsaSig.to_bytes, natToBE_length]
  · rw [EcdsaSig.to_bytes, List.append_assoc]
    rw [List.take_left' hlenA]
    exact beToNat_natToBE 32 sig.r hr_lt
  · rw [EcdsaSig.to_bytes, List.append_assoc]
    rw [List.drop_left' hlenA, List.take_left' hlenB]
    exact beToNat_natToBE 32 sig.s hs_lt
  · rw [EcdsaSig.to_bytes]
    exact List.getLast?_concat _

/-- C3 witness: concrete instance with key scalar 5, zero digest, nonce 1. -/
theorem c3_sig_wire_format_witness :
    Key.sign_digest ⟨5⟩ 1 1 (List.replicate 32 0) = .ok ⟨1, 5, 0⟩ ∧
    ((⟨1, 5, 0⟩ : EcdsaSig).to_bytes.length = 65 ∧
      (⟨1, 5, 0⟩ : EcdsaSig).to_bytes =
        natToBE 32 1 ++ natToBE 32 5 ++ [0] ∧
      beToNat ((⟨1, 5, 0⟩ : EcdsaSig).to_bytes.take 32) = 1 ∧
      beToNat (((⟨1, 5, 0⟩ : EcdsaSig).to_bytes.drop 32).take 32) = 5 ∧
      (⟨1, 5, 0⟩ : EcdsaSig).to_bytes.getLast? = some 0 ∧
      (0 : Nat) ≤ 3 ∧
      (5 : Nat) ≤ ORDER / 2) :=
  ⟨by decide,
   c3_sig_wire_format ⟨5⟩ 1 1 (List.replicate 32 0) ⟨1, 5, 0⟩ (by decide)⟩

/-- C5: for every validly constructed key the textual and byte encodings
round-trip exactly: `from_bytes (to_bytes k) = k`; `from_hex (to_hex k) = k`
with the "0x" prefix added on encode and stripped on decode; and
`from_cb58 (to_cb58 k) = k` with the "PrivateKey-" prefix and the 4-byte
double-SHA-256 checksum appended on encode and verified/stripped on decode.
`sha` is the external SHA-256 function (any function whose outputs are
byte strings of length at least 4). -/
theorem c5_encoding_roundtrips (sha : List Nat → List Nat)
    (hsha4 : ∀ x, 4 ≤ (sha x).length)
    (hsha256 : ∀ x, ∀ b ∈ sha x, b < 256)
    (k : Key) (hk : k.valid) :
    Key.from_bytes k.to_bytes = .ok k ∧
    Key.from_hex k.to_hex = .ok k ∧
    Key.from_cb58 sha (k.to_cb58 sha) = .ok k :=
  ⟨Key.from_bytes_to_bytes k hk, Key.from_hex_to_hex k hk,
   Key.from_cb58_to_cb58 sha hsha4 hsha256 k hk⟩

/-- C5 witness: the key with scalar 1 and a concrete stand-in hash. -/
theorem c5_encoding_roundtrips_witness :
    (4 ≤ (shaStub []).length) ∧ Key.valid ⟨1⟩ ∧
    (Key.from_bytes (Key.to_bytes ⟨1⟩) = .ok ⟨1⟩ ∧
      Key.from_hex (Key.to_hex ⟨1⟩) = .ok ⟨1⟩ ∧
      Key.from_cb58 shaStub (Key.to_cb58 shaStub ⟨1⟩) = .ok ⟨1⟩) :=
  ⟨by decide, by decide,
   c5_encoding_roundtrips shaStub
     (fun x => by simp [shaStub])
     (fun x b hb => by simp [shaStub] at hb; omega)
     ⟨1⟩ (by decide)⟩

/-- C4 counterexample: `from_bytes` on a 31-byte input does NOT return an
`InvalidLength` error — the `assert_eq!(raw.len(), LEN)` in the code panics
instead; likewise `sign_digest` on a 31-byte digest panics. -/
theorem c4_error_kinds_counterexample :
    Key.from_bytes (List.replicate 31 0) ≠ .err .invalidLength ∧
    Key.from_bytes (List.replicate 31 0) = .panic ∧
    Key.sign_digest ⟨1⟩ 1 1 (List.replicate 31 0) ≠ .err .invalidLength ∧
    Key.sign_digest ⟨1⟩ 1 1 (List.replicate 31 0) = .panic :=
  ⟨by decide, by decide, by decide, by decide⟩

/-- C4 amended: `from_bytes` on an input whose length is not 32 PANICS
(`assert_eq!`) rather than returning an `InvalidLength` error, and the same
holds for `sign_digest` on a digest whose length is not 32; `from_cb58` on
a payload whose 4-byte checksum does not verify does return a
`ChecksumMismatch` error to the caller. -/
theorem c4_error_kinds_amended :
    (∀ raw : List Nat, raw.length ≠ 32 → Key.from_bytes raw = .panic) ∧
    (∀ (sha : List Nat → List Nat) (s : List Char) (bytes : List Nat),
      b58Decode (trimPfxAll pkPfx s) = some bytes →
      ¬ bytes.length < 4 →
      bytes.drop (bytes.length - 4) ≠
        (sha (sha (bytes.take (bytes.length - 4)))).take 4 →
      Key.from_cb58 sha s = .err .checksumMismatch) ∧
    (∀ (k : Key) (nonce nonceInv : ZMod ORDER) (digest : List Nat),
      digest.length ≠ 32 → k.sign_digest nonce nonceInv digest = .panic) := by
  refine ⟨?_, ?_, ?_⟩
  · intro raw hlen
    rw [Key.from_bytes, if_pos hlen]
  · intro sha s bytes hdec hlen hcks
    rw [Key.from_cb58, decodeCb58WithChecksum_of_decode sha _ _ hdec,
      if_neg hlen, if_neg hcks]
  · intro k nonce nonceInv digest hlen
    rw [Key.sign_digest, if_pos hlen]

/-- C4 amended witness: a 33-byte `from_bytes` input, a tampered CB58
string, a 31-byte digest. -/
theorem c4_error_kinds_amended_witness :
    Key.from_bytes (List.replicate 33 0) = .panic ∧
    Key.from_cb58 shaStub ['2', '2', '2', '2', '2', '2', '2', '2'] =
      .err .checksumMismatch ∧
    Key.sign_digest ⟨2⟩ 1 1 (List.replicate 30 0) = .panic :=
  ⟨c4_error_kinds_amended.1 _ (by decide),
   c4_error_kinds_amended.2.1 shaStub _
     ((b58Decode (trimPfxAll pkPfx
        ['2', '2', '2', '2', '2', '2', '2', '2'])).getD [])
     (by decide) (by decide) (by decide),
   c4_error_kinds_amended.2.2 ⟨2⟩ 1 1 _ (by decide)⟩

/-- C7 counterexample: the `Display` implementation reveals the raw decoded
private-key bytes: for the concrete key with scalar 1, hex-decoding the
display output returns exactly the secret scalar bytes, and the `Info`
value logged by the example binaries carries the full private-key hex
string. -/
theorem c7_no_key_leak_counterexample :
    hexDecode (Key.display ⟨1⟩) = some (Key.to_bytes ⟨1⟩) ∧
    (Key.to_info shaStub (fun _ => 0) (fun _ => 0) ⟨1⟩).private_key_hex =
      Key.to_hex ⟨1⟩ :=
  ⟨by decide, by decide⟩

/-- C7 amended: `Display` for `Key` writes the raw scalar bytes hex-encoded
(they are exactly recoverable by hex-decoding the output), and `to_info`
stores the full private key in both its CB58 and hex encodings — the very
value the examples pass to `log::info!`.  Nothing is redacted. -/
theorem c7_display_reveals_key (k : Key) (sha : List Nat → List Nat)
    (shortAddrOf ethAddrOf : ZMod ORDER → Nat) :
    Key.display k = hexEncode k.to_bytes ∧
    hexDecode (Key.display k) = some k.to_bytes ∧
    (Key.to_info sha shortAddrOf ethAddrOf k).private_key_hex = k.to_hex ∧
    (Key.to_info sha shortAddrOf ethAddrOf k).private_key_cb58 =
      k.to_cb58 sha :=
  ⟨rfl, hexDecode_hexEncode _ (Key.to_bytes_lt k), rfl, rfl⟩

/-- C8 counterexample: an outcome in which the random source successfully
fills the 32-byte buffer with zeros makes `generate` return an error (the
all-zero scalar is invalid), refuting "never an error". -/
theorem c8_generate_counterexample :
    Key.generate (List.replicate 32 0) = .err .invalidScalar := by decide

/-- C8 amended: when the random source succeeds, `generate` returns a valid
key exactly when the 32 random bytes encode a nonzero scalar below the
curve order; for the (astronomically unlikely but possible) zero or
non-reduced outcomes it returns an `InvalidScalar` error even though
randomness succeeded. -/
theorem c8_generate_amended (rb : List Nat) (hlen : rb.length = 32) :
    (0 < beToNat rb ∧ beToNat rb < ORDER →
      Key.generate rb = .ok ⟨beToNat rb⟩ ∧ Key.valid ⟨beToNat rb⟩) ∧
    (beToNat rb = 0 ∨ ORDER ≤ beToNat rb →
      Key.generate rb = .err .invalidScalar) := by
  constructor
  · intro hv
    constructor
    · rw [Key.generate, Key.from_bytes, if_neg (by omega),
        if_neg (by omega)]
    · exact hv
  · intro hv
    rw [Key.generate, Key.from_bytes, if_neg (by omega), if_pos hv]

/-- C8 amended witness: 31 zero bytes followed by 1. -/
theorem c8_generate_amended_witness :
    (List.replicate 31 0 ++ [1]).length = 32 ∧
    (Key.generate (List.replicate 31 0 ++ [1]) =
        .ok ⟨beToNat (List.replicate 31 0 ++ [1])⟩ ∧
      Key.valid ⟨beToNat (List.replicate 31 0 ++ [1])⟩) :=
  ⟨by decide, (c8_generate_amended _ (by decide)).1 (by decide)⟩

/-! ## EIP-155 folding lemmas -/

theorem rsig_to_ethsig_v (sig : EcdsaSig) :
    (rsig_to_ethsig sig).v = normRecid sig + 27 := by
  rw [rsig_to_ethsig, normRecid]
  split <;> rfl

theorem apply_eip155_v (sig : EcdsaSig) (c : Nat) :
    (apply_eip155 (rsig_to_ethsig sig) c).v = normRecid sig + c * 2 + 35 := by
  rw [apply_eip155]
  show (rsig_to_ethsig sig).v - 27 + c * 2 + 35 = normRecid sig + c * 2 + 35
  rw [rsig_to_ethsig_v]
  omega

theorem normRecid_le (sig : EcdsaSig) (h : sig.v ≤ 1) : normRecid sig ≤ 1 := by
  rw [normRecid]; split <;> omega

/-- C1: the remote signer's `sign_message` and `sign_transaction` apply the
EIP-155 chain-id fold exactly once, so the returned `v` equals
`recovery_id + chain_id*2 + 35` (with the recovery id taken after low-S
normalization), while `sign_typed_data` converts the raw remote signature
to canonical Ethereum form WITHOUT the fold, so its `v` is the raw recovery
id (0 or 1) plus 27. -/
theorem c1_eip155_fold_discipline (hashMessage : List Nat → List Nat)
    (sighash : EthTx → List Nat) (encodeEip712 : Nat → Option (List Nat))
    (s : Signer) (msg : List Nat) (tx : EthTx) (payload : Nat)
    (hraw : ∀ dg, (s.inner.sign dg).v ≤ 1) :
    ((Signer.sign_message hashMessage s msg).v =
        normRecid (s.inner.sign (hashMessage msg)) +
          u64Of s.chain_id * 2 + 35 ∧
      normRecid (s.inner.sign (hashMessage msg)) ≤ 1) ∧
    ((Signer.sign_transaction sighash s tx).v =
        normRecid (s.inner.sign (sighash
            (tx.setChainId (tx.chain_id.getD (u64Of s.chain_id))))) +
          tx.chain_id.getD (u64Of s.chain_id) * 2 + 35 ∧
      normRecid (s.inner.sign (sighash
          (tx.setChainId (tx.chain_id.getD (u64Of s.chain_id))))) ≤ 1) ∧
    (∀ sigT digest, encodeEip712 payload = some digest →
      Signer.sign_typed_data encodeEip712 s payload = .ok sigT →
      sigT.v = normRecid (s.inner.sign digest) + 27 ∧
        normRecid (s.inner.sign digest) ≤ 1) := by
  refine ⟨⟨?_, normRecid_le _ (hraw _)⟩, ⟨?_, normRecid_le _ (hraw _)⟩, ?_⟩
  · rw [Signer.sign_message, Signer.sign_digest_with_eip155, apply_eip155_v]
  · rw [Signer.sign_transaction, Signer.sign_digest_with_eip155,
      apply_eip155_v]
  · intro sigT digest hdig hok
    rw [Signer.sign_typed_data, hdig] at hok
    injection hok with h
    rw [← h, rsig_to_ethsig_v]
    exact ⟨rfl, normRecid_le _ (hraw _)⟩

/-- C1 witness: a concrete signer bound to chain id 7. -/
theorem c1_eip155_fold_discipline_witness :
    (∀ dg, ((Signer.new cmkStub 7).inner.sign dg).v ≤ 1) ∧
    (Signer.sign_message hashMsgStub (Signer.new cmkStub 7) [1]).v = 49 ∧
    (Signer.sign_transaction sighashStub (Signer.new cmkStub 7)
        ⟨none, 0⟩).v = 49 ∧
    (rsig_to_ethsig (cmkStub.sign (List.replicate 32 3))).v = 27 := by
  have hraw : ∀ dg, ((Signer.new cmkStub 7).inner.sign dg).v ≤ 1 := by
    intro dg
    simp [Signer.new, cmkStub]
  have h := c1_eip155_fold_discipline hashMsgStub sighashStub eip712Stub
    (Signer.new cmkStub 7) [1] ⟨none, 0⟩ 0 hraw
  refine ⟨hraw, ?_, ?_, ?_⟩
  · rw [h.1.1]; decide
  · rw [h.2.1.1]; decide
  · have := (h.2.2 (rsig_to_ethsig (cmkStub.sign (List.replicate 32 3)))
      (List.replicate 32 3) rfl rfl).1
    rw [this]; decide

/-- C9: the remote signer's address is derived once at construction and
cached: `address()` returns the field computed in `new()`, and
`with_chain_id c` returns a new signer value whose `chain_id` equals `c`
while the inner key handle and the cached address are unchanged. -/
theorem c9_signer_address_cached_frame (inner : Cmk) (cid c : Nat)
    (s : Signer) :
    (Signer.new inner cid).address = inner.pubkeyH160 ∧
    (Signer.new inner cid).chain_id = cid ∧
    (Signer.new inner cid).inner = inner ∧
    ((s.with_chain_id c).chain_id = c ∧
      (s.with_chain_id c).inner = s.inner ∧
      (s.with_chain_id c).address = s.address) ∧
    ((Signer.new inner cid).with_chain_id c).address = inner.pubkeyH160 :=
  ⟨rfl, rfl, rfl, ⟨rfl, rfl, rfl⟩, rfl⟩

/-- C10: when the transaction specifies no chain id, `sign_transaction`
falls back to the signer's bound chain id; in either case the resolved
chain id is set on a clone of the transaction before the signing hash is
computed, so the digest that is signed is bound to the very chain id that
is folded into `v`. -/
theorem c10_sign_transaction_chain_binding (sighash : EthTx → List Nat)
    (s : Signer) (tx : EthTx) :
    (tx.chain_id = none →
      Signer.sign_transaction sighash s tx =
        Signer.sign_transaction sighash s
          (tx.setChainId (u64Of s.chain_id))) ∧
    Signer.sign_transaction sighash s tx =
      apply_eip155
        (rsig_to_ethsig (s.inner.sign (sighash
          (tx.setChainId (tx.chain_id.getD (u64Of s.chain_id))))))
        (tx.chain_id.getD (u64Of s.chain_id)) := by
  constructor
  · intro hnone
    cases tx with
    | mk cid body =>
      simp only at hnone
      subst hnone
      rfl
  · rfl

/-- C10 witness: a transaction with no chain id and a signer bound to 9. -/
theorem c10_sign_transaction_chain_binding_witness :
    Signer.sign_transaction sighashStub (Signer.new cmkStub 9) ⟨none, 0⟩ =
      Signer.sign_transaction sighashStub (Signer.new cmkStub 9)
        (EthTx.setChainId ⟨none, 0⟩ (u64Of 9)) :=
  (c10_sign_transaction_chain_binding sighashStub
    (Signer.new cmkStub 9) ⟨none, 0⟩).1 rfl

/-! ## Bulk-load lemmas -/

theorem loadLoop_all_ok (sha : List Nat → List Nat) :
    ∀ (ls seen : List (List Char)),
      (∀ l ∈ ls, l ∉ seen) → ls.Nodup →
      (∀ l ∈ ls, (Key.from_cb58 sha l).isOk = true) →
      loadLoop sha seen ls = .ok (ls.map (decodedKey sha)) := by
  intro ls
  induction ls with
  | nil => intro seen _ _ _; rfl
  | cons s rest ih =>
    intro seen hseen hnd hdec
    have hs_out : s ∉ seen := hseen s (by simp)
    have hsok := hdec s (by simp)
    obtain ⟨hs_rest, hnd_rest⟩ := List.nodup_cons.mp hnd
    cases hfc : Key.from_cb58 sha s with
    | ok k =>
      have hrec : loadLoop sha (s :: seen) rest =
          .ok (rest.map (decodedKey sha)) := by
        apply ih
        · intro l hl
          simp only [List.mem_cons]
          rintro (h1 | h2)
          · exact hs_rest (h1 ▸ hl)
          · exact hseen l (by simp [hl]) h2
        · exact hnd_rest
        · intro l hl; exact hdec l (by simp [hl])
      have hk : decodedKey sha s = k := by simp [decodedKey, hfc]
      simp only [loadLoop, if_neg hs_out, hfc, hrec, List.map_cons, hk]
    | err e => rw [hfc] at hsok; simp [Res.isOk] at hsok
    | panic => rw [hfc] at hsok; simp [Res.isOk] at hsok

theorem loadLoop_duplicate (sha : List Nat → List Nat) :
    ∀ (pre seen rest : List (List Char)) (l : List Char),
      (∀ x ∈ pre, (Key.from_cb58 sha x).isOk = true) →
      (l ∈ pre ∨ l ∈ seen) →
      loadLoop sha seen (pre ++ l :: rest) = .err .duplicateKey := by
  intro pre
  induction pre with
  | nil =>
    intro seen rest l _ hl
    have hl' : l ∈ seen := by
      rcases hl with h | h
      · simp at h
      · exact h
    simp only [List.nil_append, loadLoop, if_pos hl']
  | cons p pre ih =>
    intro seen rest l hdec hl
    by_cases hp : p ∈ seen
    · simp only [List.cons_append, loadLoop, if_pos hp]
    · have hpok := hdec p (by simp)
      cases hfc : Key.from_cb58 sha p with
      | ok k =>
        have hrec : loadLoop sha (p :: seen) (pre ++ l :: rest) =
            .err .duplicateKey := by
          apply ih
          · intro x hx; exact hdec x (by simp [hx])
          · rcases hl with h | h
            · rcases List.mem_cons.mp h with h1 | h2
              · right; simp [h1]
              · left; exact h2
            · right; simp [h]
        have hrec2 : loadLoop sha (p :: seen) (pre.append (l :: rest)) =
            .err .duplicateKey := hrec
        simp only [List.cons_append, loadLoop, if_neg hp, hfc, hrec, hrec2]
      | err e => rw [hfc] at hpok; simp [Res.isOk] at hpok
      | panic => rw [hfc] at hpok; simp [Res.isOk] at hpok

/-- C6: `load_cb58_keys` on text whose lines are all distinct valid
checksummed keys succeeds and returns exactly one key per line in the
original order when `permute` is false; on text containing a repeated line
it fails with `DuplicateKey`, the repeat being detected by exact string
match BEFORE that line is decoded (only the lines before the repeat need to
decode; the repeated line itself carries no decode hypothesis). -/
theorem c6_load_cb58_keys (sha : List Nat → List Nat)
    (shuffle : List Key → List Key) (d : List Char) :
    ((rustLines d).Nodup →
      (∀ l ∈ rustLines d, (Key.from_cb58 sha l).isOk = true) →
      load_cb58_keys sha shuffle d false =
        .ok ((rustLines d).map (decodedKey sha))) ∧
    (∀ pre l rest, rustLines d = pre ++ l :: rest → l ∈ pre →
      (∀ x ∈ pre, (Key.from_cb58 sha x).isOk = true) →
      load_cb58_keys sha shuffle d false = .err .duplicateKey) := by
  constructor
  · intro hnd hdec
    rw [load_cb58_keys,
      loadLoop_all_ok sha (rustLines d) [] (by simp) hnd hdec]
    exact rfl
  · intro pre l rest hsplit hmem hdec
    rw [load_cb58_keys, hsplit,
      loadLoop_duplicate sha pre [] rest l hdec (Or.inl hmem)]

set_option maxRecDepth 100000 in
set_option maxHeartbeats 1000000 in
/-- C6 witness: a two-line file of distinct keys loads in order; a file
whose second line repeats the first fails with `duplicateKey`. -/
theorem c6_load_cb58_keys_witness :
    load_cb58_keys shaStub id
        (Key.to_cb58 shaStub ⟨1⟩ ++ '\n' :: Key.to_cb58 shaStub ⟨2⟩) false =
      .ok [⟨1⟩, ⟨2⟩] ∧
    load_cb58_keys shaStub id
        (Key.to_cb58 shaStub ⟨1⟩ ++ '\n' :: Key.to_cb58 shaStub ⟨1⟩) false =
      .err .duplicateKey := by
  constructor
  · have h := (c6_load_cb58_keys shaStub id
      (Key.to_cb58 shaStub ⟨1⟩ ++ '\n' :: Key.to_cb58 shaStub ⟨2⟩)).1
      (by decide) (by decide)
    rw [h]
    decide
  · exact (c6_load_cb58_keys shaStub id
      (Key.to_cb58 shaStub ⟨1⟩ ++ '\n' :: Key.to_cb58 shaStub ⟨1⟩)).2
      [Key.to_cb58 shaStub ⟨1⟩] (Key.to_cb58 shaStub ⟨1⟩) []
      (by decide) (by decide) (by decide)
